import Mathlib

set_option maxHeartbeats 1000000

/-!
Verification of the translation-tag code generator
(`scripts/codegen-translations.js`) and the
`DoubleLineTransactionDetailsRow` UI component.

The generator is embedded shallowly: JSON values become an inductive type,
the mutation of `keysArray` in `pushNestedKeysAsArrays` becomes a returned
list, file writes become the returned string, and thrown exceptions become
`Except.error`.  JavaScript `for..in` enumeration and the `typeof` operator
are modelled per value class: `typeof x === \x27object\x27` holds exactly for
objects, arrays and `null`; `for..in` enumerates the own enumerable keys of
objects, the index keys of arrays and strings, and nothing for `null`,
`undefined`, numbers and booleans.
-/

/-- A parsed JSON value.  Object entries are listed in the enumeration
order of the corresponding JavaScript object (insertion order for the
string keys of a language file). -/
inductive Json where
  | str (s : String)
  | num (n : Int)
  | bool (b : Bool)
  | null
  | arr (elems : List Json)
  | obj (entries : List (String × Json))

/-- The JavaScript test `typeof v === \x27object\x27` used by the traversal:
true exactly for objects, arrays and `null`. -/
def typeofIsObject : Json → Bool
  | Json.obj _ => true
  | Json.arr _ => true
  | Json.null => true
  | _ => false

mutual

/-- Embedding of `pushNestedKeysAsArrays(keysArray, object, prefixArray)`:
the list of tag arrays pushed, in push order.  For each enumerated key the
tag `prefixArray ++ [key]` is pushed, and when the value satisfies
`typeof === \x27object\x27` the traversal recurses into it. -/
def pushNestedKeysAsArrays : Json → List String → List (List String)
  | Json.obj kvs, prefixArray => pushObjEntries kvs prefixArray
  | Json.arr xs, prefixArray => pushArrEntries xs 0 prefixArray
  | Json.str s, prefixArray =>
      (List.range s.length).map (fun i => prefixArray ++ [toString i])
  | _, _ => []

/-- The `for..in` loop of `pushNestedKeysAsArrays` over the entries of an
object, one entry at a time. -/
def pushObjEntries : List (String × Json) → List String → List (List String)
  | [], _ => []
  | (key, v) :: tl, prefixArray =>
      ((prefixArray ++ [key]) ::
        (if typeofIsObject v then pushNestedKeysAsArrays v (prefixArray ++ [key]) else []))
        ++ pushObjEntries tl prefixArray

/-- The `for..in` loop of `pushNestedKeysAsArrays` over an array value:
the enumerated keys are the decimal index strings. -/
def pushArrEntries : List Json → Nat → List String → List (List String)
  | [], _, _ => []
  | v :: tl, i, prefixArray =>
      ((prefixArray ++ [toString i]) ::
        (if typeofIsObject v then pushNestedKeysAsArrays v (prefixArray ++ [toString i]) else []))
        ++ pushArrEntries tl (i + 1) prefixArray

end

/-- `const maxLineLength = 80`. -/
def maxLineLength : Nat := 80

/-- Embedding of `generateArrayRepresentationForTag`: quote each component,
join with a comma and a space inside brackets after the union-member marker,
and fall back to the indented multi-line form when the single-line attempt
is longer than `maxLineLength`. -/
def generateArrayRepresentationForTag (tagAsArray : List String) : String :=
  let stringRepresentations := tagAsArray.map (fun component => "\x27" ++ component ++ "\x27")
  let oneLineAttempt := "  | [" ++ String.intercalate ", " stringRepresentations ++ "]"
  if oneLineAttempt.length ≤ maxLineLength then
    oneLineAttempt
  else
    "  | [\n      " ++ String.intercalate ",\n      " stringRepresentations ++ "\n    ]"

/-- Embedding of `generateTypeForTag`: the dot-joined quoted string form on
one line followed by the array representation. -/
def generateTypeForTag (tagAsArray : List String) : String :=
  "\n  | \x27" ++ String.intercalate "." tagAsArray ++ "\x27\n"
    ++ generateArrayRepresentationForTag tagAsArray

/-- Embedding of `generateDeclaration`: the fixed header naming the language
file, the i18n-js module declaration, and the `ValidScope` union built from
every tag. -/
def generateDeclaration (languageFilename : String) (validTagsAsArrays : List (List String)) : String :=
  "// This file was automatically generated by running `yarn codegen-translations`\n"
    ++ "// using the language file named `" ++ languageFilename ++ "`.\n//\n"
    ++ "// To regenerate this file, re-execute the `yarn codegen-translations` script.\n\n"
    ++ "import \x7b TranslateOptions \x7d from \x27i18n-js\x27;\n\n"
    ++ "declare module \x27i18n-js\x27 \x7b\n"
    ++ "  function t(scope: ValidScope, options?: TranslateOptions): string;\n\x7d\n\n"
    ++ "type ValidScope ="
    ++ String.join (validTagsAsArrays.map generateTypeForTag) ++ ";\n"

/-- Embedding of `loadLanguageJson` after the file has been read and parsed:
the property access `parsed[\x27translation\x27]`.  Reading a property of
`null` throws a `TypeError` (modelled as `Except.error`); on any other
non-object value the access yields `undefined` (modelled as `none`). -/
def loadLanguageJson : Json → Except String (Option Json)
  | Json.null => Except.error "TypeError: cannot read properties of null"
  | Json.obj kvs => Except.ok (List.lookup "translation" kvs)
  | _ => Except.ok none

/-- Embedding of `run` on an already parsed input document: the returned
string is the content written to `types-generated.d.ts`; an `error` means
the run aborted before the write.  `for..in` over an `undefined` language
document enumerates nothing, so the tag list is empty in that case. -/
def run (parsed : Json) (languageFilename : String) : Except String String :=
  match loadLanguageJson parsed with
  | Except.error e => Except.error e
  | Except.ok languageData =>
      let tagsArray := match languageData with
        | none => []
        | some d => pushNestedKeysAsArrays d []
      Except.ok (generateDeclaration languageFilename tagsArray)

/-- Key `k` does not occur among the keys of the entry list. -/
def keyNotIn (k : String) : List (String × Json) → Bool
  | [] => true
  | (k2, _) :: tl => k2 ≠ k && keyNotIn k tl

mutual

/-- Specification-side predicate: a well-formed Language Document in the
sense of the spec, a nested string-keyed mapping whose values are either
nested mappings or primitive leaves (string, number, boolean, null), with
the distinct keys of a JavaScript object at every level. -/
def isLangDoc : Json → Bool
  | Json.obj kvs => langEntriesOk kvs
  | _ => false

/-- Specification-side check of the entry list of a well-formed mapping:
keys are distinct at this level and every value is a leaf or a well-formed
mapping. -/
def langEntriesOk : List (String × Json) → Bool
  | [] => true
  | (k, v) :: tl => keyNotIn k tl && langValOk v && langEntriesOk tl

/-- Specification-side check of one value of a well-formed mapping: a
nested mapping or a primitive leaf; arrays are excluded (the spec calls a
document containing them malformed). -/
def langValOk : Json → Bool
  | Json.obj kvs => langEntriesOk kvs
  | Json.arr _ => false
  | _ => true

end

mutual

/-- Specification-side enumeration of the real key paths of a Language
Document, one per key at every nesting level, parents first, in document
order: the reference the flattener output is compared against. -/
def docKeyPaths : Json → List (List String)
  | Json.obj kvs => docKeyPathsEntries kvs
  | _ => []

/-- Specification-side key paths contributed by an entry list: for each
entry its own one-component path followed by the paths of its value
extended with the key. -/
def docKeyPathsEntries : List (String × Json) → List (List String)
  | [] => []
  | (k, v) :: tl => ([k] :: (docKeyPaths v).map (fun p => k :: p)) ++ docKeyPathsEntries tl

end

/-- Specification-side rendering of one tag component: the component
wrapped verbatim in single quotes, with no escaping. -/
def quotedVerbatim (component : String) : String := "\x27" ++ component ++ "\x27"

/-- Specification-side single-line rendering of the sequence form of a
tag, per the claim wording. -/
def oneLineRendering (tagAsArray : List String) : String :=
  "  | [" ++ String.intercalate ", " (tagAsArray.map quotedVerbatim) ++ "]"

/-- Specification-side multi-line rendering of the sequence form of a tag,
one quoted component per line, indented. -/
def multiLineRendering (tagAsArray : List String) : String :=
  "  | [\n      " ++ String.intercalate ",\n      " (tagAsArray.map quotedVerbatim) ++ "\n    ]"

/-- Values the traversal never enters: primitives and `null`.  A `null`
value satisfies `typeof === \x27object\x27` and is recursed into, but its
`for..in` enumerates nothing, so it contributes no tags either. -/
def isLeafValue : Json → Bool
  | Json.obj _ => false
  | Json.arr _ => false
  | _ => true

/-- A rendered element tree for the UI component: the design-system
elements used by `DoubleLineTransactionDetailsRow`, with the props each of
them receives in the source. -/
inductive RNode where
  | text (color : String) (size : String) (weight : String)
      (numberOfLines : Option Nat) (content : String)
  | box (paddingVertical : String) (children : List RNode)
  | columns (space : Option String) (alignVertical : Option String) (children : List RNode)
  | column (width : Option String) (children : List RNode)
  | stack (space : String) (children : List RNode)
  | inlineRow (children : List RNode)

/-- Props of `DoubleLineTransactionDetailsRow`; the opaque `ReactNode`
passed as `leftComponent` is modelled as an arbitrary element tree and the
optional `secondaryValue` as an `Option`. -/
structure RowProps where
  leftComponent : RNode
  secondaryValue : Option String
  title : String
  value : String

/-- Embedding of the `DoubleLineTransactionDetailsRow` component body: a
pure function from props to the rendered element tree.  The conditional
`secondaryValue !== undefined && (...)` renders the secondary `Column`
exactly when `secondaryValue` is present. -/
def DoubleLineTransactionDetailsRow (p : RowProps) : RNode :=
  RNode.box "20px" [
    RNode.columns (some "10px") (some "center") [
      RNode.column (some "content") [p.leftComponent],
      RNode.stack "10px" [
        RNode.inlineRow [RNode.text "labelTertiary" "13pt" "semibold" (some 1) p.title],
        RNode.columns none none
          ([RNode.text "label" "17pt" "semibold" none p.value] ++
            (match p.secondaryValue with
             | some sv => [RNode.column (some "content")
                 [RNode.text "labelTertiary" "17pt" "medium" (some 1) sv]]
             | none => []))]]]

mutual

/-- All `Text` elements of an element tree, in render order. -/
def textNodes : RNode → List RNode
  | RNode.text c s w n t => [RNode.text c s w n t]
  | RNode.box _ ch => textNodesList ch
  | RNode.columns _ _ ch => textNodesList ch
  | RNode.column _ ch => textNodesList ch
  | RNode.stack _ ch => textNodesList ch
  | RNode.inlineRow ch => textNodesList ch

/-- All `Text` elements of a list of element trees, in render order. -/
def textNodesList : List RNode → List RNode
  | [] => []
  | n :: tl => textNodes n ++ textNodesList tl

end

/-- Contents of the output file after one run: on success the run
overwrites it with the generated declaration, on failure the previous
contents remain. -/
def outputAfterRun (parsed : Json) (languageFilename : String) (previous : String) : String :=
  match run parsed languageFilename with
  | Except.ok s => s
  | Except.error _ => previous

/-- Invariant of the flattener output relative to the current path
accumulator: every produced tag strictly extends the accumulator, and every
strictly intermediate path of a produced tag occurs in the output before
that tag. -/
def pushInv (pre : List String) (L : List (List String)) : Prop :=
  (∀ t ∈ L, List.IsPrefix pre t ∧ pre.length < t.length) ∧
  (∀ t p, t ∈ L → List.IsPrefix p t → pre.length < p.length → p.length < t.length →
    List.Sublist [p, t] L)

/-- Strong induction along a natural-number measure, used for proofs about
the mutually recursive traversals over the nested `Json` type. -/
theorem measure_ind {α : Sort u} (m : α → Nat) (P : α → Prop)
    (step : ∀ x, (∀ y, m y < m x → P y) → P x) : ∀ x, P x := by
  have H : ∀ n x, m x < n → P x := by
    intro n
    induction n with
    | zero => intro x hx; exact absurd hx (Nat.not_lt_zero _)
    | succ n ih =>
        intro x hx
        exact step x (fun y hy => ih y (Nat.lt_of_lt_of_le hy (Nat.le_of_lt_succ hx)))
  exact fun x => H (m x + 1) x (Nat.lt_succ_self _)

theorem keyNotIn_not_mem (k : String) :
    ∀ tl : List (String × Json), keyNotIn k tl = true → k ∉ tl.map Prod.fst := by
  intro tl
  induction tl with
  | nil => simp
  | cons hd tl ih =>
      obtain ⟨k2, v⟩ := hd
      simp only [keyNotIn, Bool.and_eq_true, decide_eq_true_eq, List.map_cons, List.mem_cons]
      rintro ⟨hne, htl⟩ (h | h)
      · exact hne h.symm
      · exact ih htl h

theorem docKeyPathsEntries_ne_nil :
    ∀ kvs (p : List String), p ∈ docKeyPathsEntries kvs → p ≠ [] := by
  intro kvs
  induction kvs with
  | nil => simp [docKeyPathsEntries]
  | cons hd tl ih =>
      obtain ⟨k, v⟩ := hd
      intro p hp
      simp only [docKeyPathsEntries, List.mem_append, List.mem_cons, List.mem_map] at hp
      rcases hp with (h | ⟨q, _, h⟩) | h
      · subst h; simp
      · subst h; simp
      · exact ih p h

theorem docKeyPathsEntries_head :
    ∀ kvs (p : List String), p ∈ docKeyPathsEntries kvs →
      ∃ k rest, p = k :: rest ∧ k ∈ kvs.map Prod.fst := by
  intro kvs
  induction kvs with
  | nil => simp [docKeyPathsEntries]
  | cons hd tl ih =>
      obtain ⟨k, v⟩ := hd
      intro p hp
      simp only [docKeyPathsEntries, List.mem_append, List.mem_cons, List.mem_map] at hp
      rcases hp with (h | ⟨q, _, h⟩) | h
      · exact ⟨k, [], h, by simp⟩
      · exact ⟨k, q, h.symm, by simp⟩
      · obtain ⟨k2, rest, hp, hk2⟩ := ih p h
        exact ⟨k2, rest, hp, by simp [hk2]⟩

theorem docKeyPathsEntries_nodup :
    ∀ kvs, langEntriesOk kvs = true → (docKeyPathsEntries kvs).Nodup := by
  refine measure_ind sizeOf (fun kvs => langEntriesOk kvs = true → (docKeyPathsEntries kvs).Nodup) ?_
  intro kvs ih hok
  match kvs with
  | [] => simp [docKeyPathsEntries]
  | (k, v) :: tl =>
      simp only [langEntriesOk, Bool.and_eq_true] at hok
      obtain ⟨⟨hkn, hv⟩, htl⟩ := hok
      have hsz_tl : sizeOf tl < sizeOf ((k, v) :: tl) := by
        simp only [List.cons.sizeOf_spec]; omega
      have hD : (docKeyPaths v).Nodup := by
        cases v with
        | obj kvs2 =>
            have hsz : sizeOf kvs2 < sizeOf ((k, Json.obj kvs2) :: tl) := by
              simp only [List.cons.sizeOf_spec, Prod.mk.sizeOf_spec, Json.obj.sizeOf_spec]
              omega
            exact ih kvs2 hsz hv
        | arr _ => simp [langValOk] at hv
        | str _ => simp [docKeyPaths]
        | num _ => simp [docKeyPaths]
        | bool _ => simp [docKeyPaths]
        | null => simp [docKeyPaths]
      have hDnil : ([] : List String) ∉ docKeyPaths v := by
        cases v with
        | obj kvs2 => exact fun h => docKeyPathsEntries_ne_nil kvs2 [] h rfl
        | arr _ => simp [docKeyPaths]
        | str _ => simp [docKeyPaths]
        | num _ => simp [docKeyPaths]
        | bool _ => simp [docKeyPaths]
        | null => simp [docKeyPaths]
      simp only [docKeyPathsEntries]
      refine List.Nodup.append ?_ (ih tl hsz_tl htl) ?_
      · refine List.nodup_cons.mpr ⟨?_, ?_⟩
        · intro hc
          obtain ⟨q, hq, hqe⟩ := List.mem_map.mp hc
          have : q = [] := by
            have := List.cons.injEq k q k ([] : List String) ▸ hqe
            exact (List.cons.injEq .. ▸ hqe).2
          exact hDnil (this ▸ hq)
        · exact List.Nodup.map (fun a b hab => by simpa using hab) hD
      · intro p hp hp2
        obtain ⟨k2, rest, hpe, hk2⟩ := docKeyPathsEntries_head tl p hp2
        have hk : p.head? = some k := by
          rcases List.mem_cons.mp hp with h | h
          · subst h; rfl
          · obtain ⟨q, _, hq⟩ := List.mem_map.mp h
            subst hq; rfl
        rw [hpe] at hk
        simp only [List.head?_cons, Option.some.injEq] at hk
        exact keyNotIn_not_mem k tl hkn (hk ▸ hk2)

theorem pushObjEntries_eq_docKeyPaths :
    ∀ kvs, langEntriesOk kvs = true →
      ∀ pre, pushObjEntries kvs pre = (docKeyPathsEntries kvs).map (fun p => pre ++ p) := by
  refine measure_ind sizeOf
    (fun kvs => langEntriesOk kvs = true →
      ∀ pre, pushObjEntries kvs pre = (docKeyPathsEntries kvs).map (fun p => pre ++ p)) ?_
  intro kvs ih hok pre
  match kvs with
  | [] => simp [pushObjEntries, docKeyPathsEntries]
  | (k, v) :: tl =>
      simp only [langEntriesOk, Bool.and_eq_true] at hok
      obtain ⟨⟨hkn, hv⟩, htl⟩ := hok
      have hsz_tl : sizeOf tl < sizeOf ((k, v) :: tl) := by
        simp only [List.cons.sizeOf_spec]; omega
      have hblock :
          (if typeofIsObject v then pushNestedKeysAsArrays v (pre ++ [k]) else [])
            = (docKeyPaths v).map (fun p => (pre ++ [k]) ++ p) := by
        cases v with
        | obj kvs2 =>
            have hsz : sizeOf kvs2 < sizeOf ((k, Json.obj kvs2) :: tl) := by
              simp only [List.cons.sizeOf_spec, Prod.mk.sizeOf_spec, Json.obj.sizeOf_spec]
              omega
            simp only [typeofIsObject, if_true, pushNestedKeysAsArrays, docKeyPaths]
            exact ih kvs2 hsz hv (pre ++ [k])
        | arr _ => simp [langValOk] at hv
        | str _ => simp [typeofIsObject, docKeyPaths]
        | num _ => simp [typeofIsObject, docKeyPaths]
        | bool _ => simp [typeofIsObject, docKeyPaths]
        | null => simp [typeofIsObject, pushNestedKeysAsArrays, docKeyPaths]
      simp only [pushObjEntries, docKeyPathsEntries, List.map_append, List.map_cons,
        List.map_map, hblock, ih tl hsz_tl htl pre]
      simp [Function.comp, List.append_assoc]

theorem pushNestedKeysAsArrays_eq_docKeyPaths (j : Json) (h : isLangDoc j = true) :
    pushNestedKeysAsArrays j [] = docKeyPaths j := by
  match j with
  | Json.obj kvs =>
      simp only [pushNestedKeysAsArrays, docKeyPaths]
      rw [pushObjEntries_eq_docKeyPaths kvs h []]
      simp
  | Json.arr _ => simp [isLangDoc] at h
  | Json.str _ => simp [isLangDoc] at h
  | Json.num _ => simp [isLangDoc] at h
  | Json.bool _ => simp [isLangDoc] at h
  | Json.null => simp [isLangDoc] at h

theorem pushInv_nil (pre : List String) : pushInv pre [] := by
  constructor
  · intro t ht; simp at ht
  · intro t p ht; simp at ht

theorem pushInv_singletons (pre : List String) (ks : List String) :
    pushInv pre (ks.map (fun k => pre ++ [k])) := by
  constructor
  · intro t ht
    obtain ⟨k, _, hk⟩ := List.mem_map.mp ht
    subst hk
    exact ⟨List.prefix_append pre [k], by simp⟩
  · intro t p ht hpt hp1 hp2
    obtain ⟨k, _, hk⟩ := List.mem_map.mp ht
    subst hk
    simp at hp2
    omega

theorem pushInv_block (pre : List String) (k : String) (C : List (List String))
    (hC : pushInv (pre ++ [k]) C) : pushInv pre ((pre ++ [k]) :: C) := by
  constructor
  · intro t ht
    rcases List.mem_cons.mp ht with h | h
    · subst h
      exact ⟨List.prefix_append pre [k], by simp⟩
    · obtain ⟨h1, h2⟩ := hC.1 t h
      refine ⟨(List.prefix_append pre [k]).trans h1, ?_⟩
      have : (pre ++ [k]).length = pre.length + 1 := by simp
      omega
  · intro t p ht hpt hp1 hp2
    rcases List.mem_cons.mp ht with h | h
    · subst h
      simp at hp2
      omega
    · have hkt : List.IsPrefix (pre ++ [k]) t := (hC.1 t h).1
      have hklen : (pre ++ [k]).length = pre.length + 1 := by simp
      rcases Nat.lt_or_ge (pre.length + 1) p.length with hgt | hge
      · have hkp : List.IsPrefix (pre ++ [k]) p :=
          List.prefix_of_prefix_length_le hkt hpt (by omega)
        have := hC.2 t p h hpt (by omega) hp2
        exact this.cons _
      · have hpeq : p = pre ++ [k] := by
          have hple : List.IsPrefix p (pre ++ [k]) :=
            List.prefix_of_prefix_length_le hpt hkt (by omega)
          exact hple.eq_of_length (by omega)
        subst hpeq
        exact (List.singleton_sublist.mpr h).cons₂ _

theorem pushInv_append (pre : List String) (B R : List (List String))
    (hB : pushInv pre B) (hR : pushInv pre R) : pushInv pre (B ++ R) := by
  constructor
  · intro t ht
    rcases List.mem_append.mp ht with h | h
    · exact hB.1 t h
    · exact hR.1 t h
  · intro t p ht hpt hp1 hp2
    rcases List.mem_append.mp ht with h | h
    · exact (hB.2 t p h hpt hp1 hp2).trans (List.sublist_append_left B R)
    · exact (hR.2 t p h hpt hp1 hp2).trans (List.sublist_append_right B R)

theorem pushInv_all : ∀ n : Nat,
    (∀ j : Json, sizeOf j ≤ n → ∀ pre, pushInv pre (pushNestedKeysAsArrays j pre)) ∧
    (∀ kvs : List (String × Json), sizeOf kvs ≤ n → ∀ pre, pushInv pre (pushObjEntries kvs pre)) ∧
    (∀ xs : List Json, sizeOf xs ≤ n → ∀ i pre, pushInv pre (pushArrEntries xs i pre)) := by
  intro n
  induction n using Nat.strong_induction_on with
  | _ n ih =>
    refine ⟨?_, ?_, ?_⟩
    · intro j hj pre
      cases j with
      | obj kvs =>
          have hlt : sizeOf kvs < n := by
            simp only [Json.obj.sizeOf_spec] at hj; omega
          simp only [pushNestedKeysAsArrays]
          exact (ih (sizeOf kvs) hlt).2.1 kvs (Nat.le_refl _) pre
      | arr xs =>
          have hlt : sizeOf xs < n := by
            simp only [Json.arr.sizeOf_spec] at hj; omega
          simp only [pushNestedKeysAsArrays]
          exact (ih (sizeOf xs) hlt).2.2 xs (Nat.le_refl _) 0 pre
      | str s =>
          have : (List.range s.length).map (fun i => pre ++ [toString i])
              = ((List.range s.length).map toString).map (fun k => pre ++ [k]) := by
            simp [List.map_map, Function.comp]
          simp only [pushNestedKeysAsArrays, this]
          exact pushInv_singletons pre _
      | num m => simpa only [pushNestedKeysAsArrays] using pushInv_nil pre
      | bool b => simpa only [pushNestedKeysAsArrays] using pushInv_nil pre
      | null => simpa only [pushNestedKeysAsArrays] using pushInv_nil pre
    · intro kvs hk pre
      cases kvs with
      | nil => simpa only [pushObjEntries] using pushInv_nil pre
      | cons hd tl =>
          obtain ⟨k, v⟩ := hd
          have hszv : sizeOf v < n := by
            simp only [List.cons.sizeOf_spec, Prod.mk.sizeOf_spec] at hk; omega
          have hsztl : sizeOf tl < n := by
            simp only [List.cons.sizeOf_spec] at hk; omega
          have hC : pushInv (pre ++ [k])
              (if typeofIsObject v then pushNestedKeysAsArrays v (pre ++ [k]) else []) := by
            cases hty : typeofIsObject v with
            | true =>
                simp only [if_true]
                exact (ih (sizeOf v) hszv).1 v (Nat.le_refl _) (pre ++ [k])
            | false =>
                simp only [Bool.false_eq_true, if_false]
                exact pushInv_nil _
          have hR : pushInv pre (pushObjEntries tl pre) :=
            (ih (sizeOf tl) hsztl).2.1 tl (Nat.le_refl _) pre
          simp only [pushObjEntries]
          exact pushInv_append pre _ _ (pushInv_block pre k _ hC) hR
    · intro xs hx i pre
      cases xs with
      | nil => simpa only [pushArrEntries] using pushInv_nil pre
      | cons v tl =>
          have hszv : sizeOf v < n := by
            simp only [List.cons.sizeOf_spec] at hx; omega
          have hsztl : sizeOf tl < n := by
            simp only [List.cons.sizeOf_spec] at hx; omega
          have hC : pushInv (pre ++ [toString i])
              (if typeofIsObject v then pushNestedKeysAsArrays v (pre ++ [toString i]) else []) := by
            cases hty : typeofIsObject v with
            | true =>
                simp only [if_true]
                exact (ih (sizeOf v) hszv).1 v (Nat.le_refl _) (pre ++ [toString i])
            | false =>
                simp only [Bool.false_eq_true, if_false]
                exact pushInv_nil _
          have hR : pushInv pre (pushArrEntries tl (i + 1) pre) :=
            (ih (sizeOf tl) hsztl).2.2 tl (Nat.le_refl _) (i + 1) pre
          simp only [pushArrEntries]
          exact pushInv_append pre _ _ (pushInv_block pre (toString i) _ hC) hR


/-- Claim C1: for every Language Document (nested string-keyed mapping),
the tag list produced by `pushNestedKeysAsArrays` starting from the empty
prefix contains every real key path of the document exactly once
(completeness, no duplicates) and nothing else (soundness): the output has
no duplicate tags and its members are exactly the key paths of the
document. -/
theorem c1_flattener_complete_and_sound (j : Json) (h : isLangDoc j = true) :
    (pushNestedKeysAsArrays j []).Nodup ∧
      ∀ p, (p ∈ pushNestedKeysAsArrays j [] ↔ p ∈ docKeyPaths j) := by
  have he := pushNestedKeysAsArrays_eq_docKeyPaths j h
  refine ⟨?_, fun p => by rw [he]⟩
  rw [he]
  cases j with
  | obj kvs => exact docKeyPathsEntries_nodup kvs (by simpa [isLangDoc] using h)
  | arr _ => simp [isLangDoc] at h
  | str _ => simp [isLangDoc] at h
  | num _ => simp [isLangDoc] at h
  | bool _ => simp [isLangDoc] at h
  | null => simp [isLangDoc] at h

/-- Witness for C1 at the two-level example document. -/
theorem c1_flattener_complete_and_sound_witness :
    isLangDoc (Json.obj [("button", Json.obj [("send", Json.str "Send")]),
        ("cancel", Json.str "Cancel")]) = true ∧
      (pushNestedKeysAsArrays (Json.obj [("button", Json.obj [("send", Json.str "Send")]),
        ("cancel", Json.str "Cancel")]) []).Nodup ∧
      (["button", "send"] ∈ pushNestedKeysAsArrays
          (Json.obj [("button", Json.obj [("send", Json.str "Send")]),
            ("cancel", Json.str "Cancel")]) [] ↔
        ["button", "send"] ∈ docKeyPaths
          (Json.obj [("button", Json.obj [("send", Json.str "Send")]),
            ("cancel", Json.str "Cancel")])) :=
  ⟨by decide,
   (c1_flattener_complete_and_sound _ (by decide)).1,
   (c1_flattener_complete_and_sound _ (by decide)).2 ["button", "send"]⟩

/-- Claim C2 counterexample: the parsed input `{}` has no top-level
`translation` field, yet the run does not fail: it succeeds and writes a
declaration file (with an empty scope union), contradicting the claimed
fatal failure before any write. -/
theorem c2_counterexample_missing_translation_writes :
    loadLanguageJson (Json.obj []) = Except.ok none ∧
      run (Json.obj []) "en_US.json"
        = Except.ok (generateDeclaration "en_US.json" []) := ⟨rfl, rfl⟩

/-- Claim C2 amended: only a `null` top-level value makes the property
access `parsed[\x27translation\x27]` throw and abort the run before the
write; a parsed non-null input without a `translation` field does not
fail: the run completes and overwrites the output file with a declaration
whose scope union is empty. -/
theorem c2_amended_missing_translation (parsed : Json) (languageFilename : String) :
    (parsed = Json.null →
      run parsed languageFilename
        = Except.error "TypeError: cannot read properties of null") ∧
    (loadLanguageJson parsed = Except.ok none →
      run parsed languageFilename
        = Except.ok (generateDeclaration languageFilename [])) := by
  constructor
  · rintro rfl; rfl
  · intro h; simp [run, h]

/-- Witness for the amended C2 at `null` and at the empty object. -/
theorem c2_amended_missing_translation_witness :
    run Json.null "en_US.json"
        = Except.error "TypeError: cannot read properties of null" ∧
      run (Json.obj []) "en_US.json"
        = Except.ok (generateDeclaration "en_US.json" []) :=
  ⟨(c2_amended_missing_translation Json.null "en_US.json").1 rfl,
   (c2_amended_missing_translation (Json.obj []) "en_US.json").2 rfl⟩

/-- Claim C3 counterexample: for the key `k` whose value is the array
`["x"]` (a non-mapping, non-primitive value), the flattener does traverse
into the value: the tag `["k", "0"]` extending the path of `k` appears in
the output, because `typeof` of an array is `object`. -/
theorem c3_counterexample_array_traversed :
    pushNestedKeysAsArrays (Json.obj [("k", Json.arr [Json.str "x"])]) []
        = [["k"], ["k", "0"]] ∧
      ["k", "0"] ∈ pushNestedKeysAsArrays (Json.obj [("k", Json.arr [Json.str "x"])]) [] := by
  constructor <;> decide

/-- Claim C3 amended: each entry of a mapping contributes its tags
independently, and a key whose value is a primitive (string, number,
boolean) or `null` is recorded as a tag and contributes no tag extending
its path; a key whose value is an array, however, is traversed, with the
array indices as keys. -/
theorem c3_amended_leaves_not_traversed (k : String) (v : Json)
    (tl : List (String × Json)) (pre : List String) :
    pushNestedKeysAsArrays (Json.obj ((k, v) :: tl)) pre
        = pushNestedKeysAsArrays (Json.obj [(k, v)]) pre
          ++ pushNestedKeysAsArrays (Json.obj tl) pre ∧
      (isLeafValue v = true →
        pushNestedKeysAsArrays (Json.obj [(k, v)]) pre = [pre ++ [k]]) := by
  constructor
  · simp [pushNestedKeysAsArrays, pushObjEntries]
  · intro h
    cases v with
    | obj _ => simp [isLeafValue] at h
    | arr _ => simp [isLeafValue] at h
    | str s => simp [pushNestedKeysAsArrays, pushObjEntries, typeofIsObject]
    | num m => simp [pushNestedKeysAsArrays, pushObjEntries, typeofIsObject]
    | bool b => simp [pushNestedKeysAsArrays, pushObjEntries, typeofIsObject]
    | null => simp [pushNestedKeysAsArrays, pushObjEntries, typeofIsObject]

/-- Witness for the amended C3 at a string-valued key next to a null-valued
key. -/
theorem c3_amended_leaves_not_traversed_witness :
    pushNestedKeysAsArrays (Json.obj [("a", Json.str "x"), ("b", Json.null)]) []
        = pushNestedKeysAsArrays (Json.obj [("a", Json.str "x")]) []
          ++ pushNestedKeysAsArrays (Json.obj [("b", Json.null)]) [] ∧
      isLeafValue (Json.str "x") = true ∧
      pushNestedKeysAsArrays (Json.obj [("a", Json.str "x")]) [] = [[] ++ ["a"]] :=
  ⟨(c3_amended_leaves_not_traversed "a" (Json.str "x") [("b", Json.null)] []).1,
   by decide,
   (c3_amended_leaves_not_traversed "a" (Json.str "x") [("b", Json.null)] []).2 (by decide)⟩


/-- Claim C4: `generateArrayRepresentationForTag` returns the indented
multi-line form exactly when the single-line rendering of the sequence
form is longer than 80 characters, and returns the single-line form
unchanged otherwise. -/
theorem c4_line_length_policy (tagAsArray : List String) :
    ((oneLineRendering tagAsArray).length > maxLineLength →
      generateArrayRepresentationForTag tagAsArray = multiLineRendering tagAsArray) ∧
    ((oneLineRendering tagAsArray).length ≤ maxLineLength →
      generateArrayRepresentationForTag tagAsArray = oneLineRendering tagAsArray) := by
  have hfun : (fun component => ("\x27" ++ component ++ "\x27" : String)) = quotedVerbatim := rfl
  simp only [generateArrayRepresentationForTag, oneLineRendering, multiLineRendering, hfun]
  constructor
  · intro h; rw [if_neg (by omega)]
  · intro h; rw [if_pos h]

/-- Witness for C4 at one overlong tag and one short tag. -/
theorem c4_line_length_policy_witness :
    ((oneLineRendering ["aaaaaaaaaaaaaaaaaaaaaaaaaaaaaaaaaaaaaaaaaaaaaaaaaaaaaaaaaaaaaaaaaaaaaaaaaaaaaaaa"]).length > maxLineLength ∧
      generateArrayRepresentationForTag ["aaaaaaaaaaaaaaaaaaaaaaaaaaaaaaaaaaaaaaaaaaaaaaaaaaaaaaaaaaaaaaaaaaaaaaaaaaaaaaaa"]
        = multiLineRendering ["aaaaaaaaaaaaaaaaaaaaaaaaaaaaaaaaaaaaaaaaaaaaaaaaaaaaaaaaaaaaaaaaaaaaaaaaaaaaaaaa"]) ∧
    ((oneLineRendering ["a", "b"]).length ≤ maxLineLength ∧
      generateArrayRepresentationForTag ["a", "b"] = oneLineRendering ["a", "b"]) :=
  ⟨⟨by decide, (c4_line_length_policy ["aaaaaaaaaaaaaaaaaaaaaaaaaaaaaaaaaaaaaaaaaaaaaaaaaaaaaaaaaaaaaaaaaaaaaaaaaaaaaaaa"]).1 (by decide)⟩,
   ⟨by decide, (c4_line_length_policy ["a", "b"]).2 (by decide)⟩⟩

/-- Claim C5: for the tag with components `a` and `b`, the generated type
has string form exactly the quoted dot-joined literal `a.b` and sequence
form exactly the two quoted components in order, wrapped in brackets. -/
theorem c5_tag_type_forms :
    generateTypeForTag ["a", "b"] = "\n  | \x27a.b\x27\n  | [\x27a\x27, \x27b\x27]" := by
  decide

/-- Claim C6: the pipeline is deterministic: two runs of the generation
function on the same parsed document and filename produce identical
declaration text, so a second run on an unchanged input leaves the output
file byte-identical. -/
theorem c6_deterministic_idempotent (parsed : Json) (languageFilename : String)
    (previous : String) :
    run parsed languageFilename = run parsed languageFilename ∧
      outputAfterRun parsed languageFilename
          (outputAfterRun parsed languageFilename previous)
        = outputAfterRun parsed languageFilename previous := by
  refine ⟨rfl, ?_⟩
  unfold outputAfterRun
  cases run parsed languageFilename <;> rfl

/-- Claim C7: prefix closure: every proper nonempty prefix of a tag in the
flattener output is itself a tag in the output, and some occurrence of it
appears before the longer tag (parents are pushed before descendants in
the pre-order traversal). -/
theorem c7_prefix_closure (j : Json) (t p : List String)
    (ht : t ∈ pushNestedKeysAsArrays j []) (hp : p ≠ [])
    (hpt : List.IsPrefix p t) (hne : p ≠ t) :
    p ∈ pushNestedKeysAsArrays j [] ∧
      List.Sublist [p, t] (pushNestedKeysAsArrays j []) := by
  have hInv := (pushInv_all (sizeOf j)).1 j (Nat.le_refl _) []
  have hlen : p.length < t.length :=
    lt_of_le_of_ne hpt.length_le (fun hl => hne (hpt.eq_of_length hl))
  have hpos : 0 < p.length := List.length_pos.mpr hp
  have hsub := hInv.2 t p ht hpt (by simpa using hpos) hlen
  exact ⟨hsub.subset (List.mem_cons_self p [t]), hsub⟩

/-- Witness for C7 at the two-level example document. -/
theorem c7_prefix_closure_witness :
    ["button", "send"] ∈ pushNestedKeysAsArrays
        (Json.obj [("button", Json.obj [("send", Json.str "Send")]),
          ("cancel", Json.str "Cancel")]) [] ∧
      List.IsPrefix ["button"] ["button", "send"] ∧
      (["button"] ∈ pushNestedKeysAsArrays
          (Json.obj [("button", Json.obj [("send", Json.str "Send")]),
            ("cancel", Json.str "Cancel")]) [] ∧
        List.Sublist [["button"], ["button", "send"]]
          (pushNestedKeysAsArrays
            (Json.obj [("button", Json.obj [("send", Json.str "Send")]),
              ("cancel", Json.str "Cancel")]) [])) :=
  ⟨by decide, ⟨["send"], rfl⟩,
   c7_prefix_closure
     (Json.obj [("button", Json.obj [("send", Json.str "Send")]),
       ("cancel", Json.str "Cancel")])
     ["button", "send"] ["button"] (by decide) (by decide) ⟨["send"], rfl⟩ (by decide)⟩

/-- Claim C8: for the example input document the flattener produces
exactly the three tags `button`, `button.send` and `cancel`, and the run
on the enclosing input generates the union over exactly those three. -/
theorem c8_example_document_tags :
    pushNestedKeysAsArrays (Json.obj [("button", Json.obj [("send", Json.str "Send")]),
        ("cancel", Json.str "Cancel")]) []
        = [["button"], ["button", "send"], ["cancel"]] ∧
      run (Json.obj [("translation",
            Json.obj [("button", Json.obj [("send", Json.str "Send")]),
              ("cancel", Json.str "Cancel")])]) "en_US.json"
        = Except.ok (generateDeclaration "en_US.json"
            [["button"], ["button", "send"], ["cancel"]]) := by
  exact ⟨by decide, rfl⟩

/-- Claim C9: the renderer performs no escaping: the string form is the
dot-join wrapped verbatim in single quotes, the sequence form quotes each
component verbatim, and a quoted component is exactly the quote character,
the raw component characters and the closing quote, so a component holding
a quote or backslash is embedded unescaped. -/
theorem c9_components_unescaped (tagAsArray : List String) (component : String) :
    generateTypeForTag tagAsArray
        = "\n  | " ++ quotedVerbatim (String.intercalate "." tagAsArray) ++ "\n"
          ++ generateArrayRepresentationForTag tagAsArray ∧
      generateArrayRepresentationForTag tagAsArray
        = (if (oneLineRendering tagAsArray).length ≤ maxLineLength then
            oneLineRendering tagAsArray
          else multiLineRendering tagAsArray) ∧
      (quotedVerbatim component).data
        = Char.ofNat 39 :: (component.data ++ [Char.ofNat 39]) := by
  have hfun : (fun component => ("\x27" ++ component ++ "\x27" : String)) = quotedVerbatim := rfl
  refine ⟨?_, ?_, ?_⟩
  · simp only [generateTypeForTag, quotedVerbatim]
    rw [show ("\n  | \x27" : String) = "\n  | " ++ "\x27" from rfl,
      show ("\x27\n" : String) = "\x27" ++ "\n" from rfl]
    simp only [String.append_assoc]
  · simp only [generateArrayRepresentationForTag, oneLineRendering, multiLineRendering, hfun]
  · obtain ⟨cs⟩ := component
    rfl

/-- Claim C10: the row component is a pure function of its props: its
rendered Text elements are, in render order, those of the opaque left
component, the title Text, the value Text, and the secondary-value Text
exactly when `secondaryValue` is present. -/
theorem c10_double_line_row (p : RowProps) :
    textNodes (DoubleLineTransactionDetailsRow p)
      = textNodes p.leftComponent
        ++ [RNode.text "labelTertiary" "13pt" "semibold" (some 1) p.title,
            RNode.text "label" "17pt" "semibold" none p.value]
        ++ (match p.secondaryValue with
            | some sv => [RNode.text "labelTertiary" "17pt" "medium" (some 1) sv]
            | none => []) := by
  obtain ⟨lc, sv, title, value⟩ := p
  cases sv <;>
    simp [DoubleLineTransactionDetailsRow, textNodes, textNodesList]
